import Mathlib

/-!
Verification of the langid.c classification engine (liblangid.c, langid.c).

The C sources are shallowly embedded: machine doubles become rationals,
C arrays become Lean lists read through `List.getD` (matching the flat
pointer arithmetic of the source), and the sparse counting set of
sparseset.h — whose source file is not part of the material, only its
callers — is modelled from the spec as an insertion-ordered association
list.
-/

/-- Modelled from the spec: the sparse accumulator of sparseset.h (the file
itself is absent; only its callers in liblangid.c are available).  Spec §4.1:
`dense` is the ordered sequence of distinct active indices and `counts[i]` the
accumulated count of an active index.  We represent the pair of arrays as the
insertion-ordered list of `(index, count)` pairs for the active indices. -/
abbrev SparseSet : Type := List (Nat × Nat)

/-- Modelled from the spec: `clear()` deactivates every index (`members = 0`);
counts of inactive indices are meaningless, so the cleared accumulator is the
empty association list. -/
def SparseSet.clear (_s : SparseSet) : SparseSet := []

/-- Modelled from the spec: `add(index, delta)` — if `index` is inactive,
append it to `dense` with `counts[index] = delta`; if active, add `delta`
to `counts[index]`. -/
def SparseSet.add (s : SparseSet) (idx delta : Nat) : SparseSet :=
  if (List.any s fun p => p.1 == idx)
  then List.map (fun p => if p.1 == idx then (p.1, p.2 + delta) else p) s
  else s ++ [(idx, delta)]

/-- Total accumulated count recorded for `idx` (0 when inactive). -/
def SparseSet.countOf : SparseSet → Nat → Nat
  | [], _ => 0
  | p :: rest, idx => (if p.1 = idx then p.2 else 0) + SparseSet.countOf rest idx

/-- The active indices of the accumulator, in insertion order. -/
def SparseSet.keys (s : SparseSet) : List Nat := List.map (fun p => p.1) s

/-- The `LanguageIdentifier` struct of liblangid.h.  The flat C arrays
(`tk_nextmove` as `num_states × 256`, `tk_output*`, `nb_pc`, `nb_ptc` as
`num_feats × num_langs` row-major, `nb_classes`) are embedded as index
functions; `load_identifier` below instantiates them by `List.getD` over the
unpacked message, mirroring the pointer casts of the C code. -/
structure LanguageIdentifier where
  num_feats : Nat
  num_langs : Nat
  num_states : Nat
  tk_nextmove : Nat → Nat → Nat
  tk_output_c : Nat → Nat
  tk_output_s : Nat → Nat
  tk_output : Nat → Nat
  nb_pc : Nat → ℚ
  nb_ptc : Nat → ℚ
  nb_classes : Nat → String

/-- `text_to_fv` of liblangid.c: clear both accumulators, walk the text from
state 0 taking `s = tk_nextmove[s][byte]` and recording `add(sv, s, 1)`, then
turn the state vector into the feature vector: for every active `(m, c)` in
`sv`, for `j < tk_output_c[m]`, `add(fv, tk_output[tk_output_s[m] + j], c)`.
The scratch accumulators are passed in (they live in the struct in C) and are
cleared first.  Returns `(sv, fv)`. -/
def text_to_fv (lid : LanguageIdentifier) (text : List Nat) (sv fv : SparseSet) :
    SparseSet × SparseSet :=
  let sv0 := sv.clear
  let fv0 := fv.clear
  let walk := List.foldl
    (fun (p : Nat × SparseSet) b =>
      let s := lid.tk_nextmove p.1 b
      (s, p.2.add s 1))
    (0, sv0) text
  let sv1 := walk.2
  let fv1 := List.foldl
    (fun acc (mc : Nat × Nat) =>
      List.foldl
        (fun acc2 j => acc2.add (lid.tk_output (lid.tk_output_s mc.1 + j)) mc.2)
        acc (List.range (lid.tk_output_c mc.1)))
    fv0 sv1
  (sv1, fv1)

/-- `fv_to_logprob` of liblangid.c: `logprob[j]` starts at the prior
`nb_pc[j]` and, for every active `(m, c)` of the feature vector, accumulates
`c * nb_ptc[m * num_langs + j]`.  The C code fills a `num_langs`-sized array;
we build the same array as a list over `j < num_langs`. -/
def fv_to_logprob (lid : LanguageIdentifier) (fv : SparseSet) : List ℚ :=
  List.map
    (fun j => List.foldl
      (fun acc (mc : Nat × Nat) => acc + (mc.2 : ℚ) * lid.nb_ptc (mc.1 * lid.num_langs + j))
      (lid.nb_pc j) fv)
    (List.range lid.num_langs)

/-- The row-major read `nb_ptc[feat * num_langs + lang]` of liblangid.c,
i.e. `likelihood[feat][lang]` of the `num_feats × num_langs` matrix. -/
def likelihood (lid : LanguageIdentifier) (feat lang : Nat) : ℚ :=
  lid.nb_ptc (feat * lid.num_langs + lang)

/-- `logprob_to_pred_n` of liblangid.c: `m = 0`, then for `i` from 1 to
`n - 1`, `if (logprob[i] > logprob[m]) m = i`. -/
def logprob_to_pred_n (logprob : List ℚ) (n : Nat) : Nat :=
  List.foldl
    (fun m i => if logprob.getD i 0 > logprob.getD m 0 then i else m)
    0 (List.range' 1 (n - 1))

/-- `normalize_logprobs_n` of liblangid.c, first loop: `max = logprobs[0]`,
then for `i` from 1 to `n - 1`, `if (max < logprobs[i]) max = logprobs[i]`. -/
def normalize_max (logprobs : List ℚ) (n : Nat) : ℚ :=
  List.foldl
    (fun mx i => if mx < logprobs.getD i 0 then logprobs.getD i 0 else mx)
    (logprobs.getD 0 0) (List.range' 1 (n - 1))

/-- `normalize_logprobs_n` of liblangid.c: compute the maximum of the first
`n` entries, then subtract it from each of them (in place in C; here the
resulting length-`n` array). -/
def normalize_logprobs_n (logprobs : List ℚ) (n : Nat) : List ℚ :=
  List.map (fun i => logprobs.getD i 0 - normalize_max logprobs n) (List.range n)

/-- `identify_logprobs` of liblangid.c: `text_to_fv` into the scratch
accumulators then `fv_to_logprob` of the resulting feature vector. -/
def identify_logprobs (lid : LanguageIdentifier) (text : List Nat) (sv fv : SparseSet) :
    List ℚ :=
  fv_to_logprob lid (text_to_fv lid text sv fv).2

/-- `identify_index` of liblangid.c (through `logprob_to_pred`):
argmax over the `num_langs` log-probabilities. -/
def identify_index (lid : LanguageIdentifier) (text : List Nat) (sv fv : SparseSet) : Nat :=
  logprob_to_pred_n (identify_logprobs lid text sv fv) lid.num_langs

/-- `get_lang_name` of liblangid.c: `nb_classes[i]`. -/
def get_lang_name (lid : LanguageIdentifier) (i : Nat) : String :=
  lid.nb_classes i

/-- `identify` of liblangid.c: name of the argmax language. -/
def identify (lid : LanguageIdentifier) (text : List Nat) (sv fv : SparseSet) : String :=
  get_lang_name lid (identify_index lid text sv fv)

/-- `LangIndex` is C `unsigned` (32-bit); `(LangIndex)-1` is `2^32 - 1`. -/
def langIndexNotFound : Nat := 2 ^ 32 - 1

/-- `get_lang_index` of liblangid.c: linear scan of `nb_classes` for the
first index whose name `strcmp`s equal; `(LangIndex)-1` when absent. -/
def get_lang_index (lid : LanguageIdentifier) (name : String) : Nat :=
  match List.find? (fun i => lid.nb_classes i == name) (List.range lid.num_langs) with
  | some i => i
  | none => langIndexNotFound

/-- The sequence of automaton states *entered* while consuming `text` from
state `s` (the state after each byte, i.e. exactly the states recorded by the
walk of `text_to_fv`). -/
def statesFrom (lid : LanguageIdentifier) : Nat → List Nat → List Nat
  | _, [] => []
  | s, b :: rest =>
      let s2 := lid.tk_nextmove s b
      s2 :: statesFrom lid s2 rest

/-- The emission range of state `m`: `tk_output[tk_output_s[m] + j]` for
`j < tk_output_c[m]`. -/
def emisList (lid : LanguageIdentifier) (m : Nat) : List Nat :=
  List.map (fun j => lid.tk_output (lid.tk_output_s m + j)) (List.range (lid.tk_output_c m))

/-- The unpacked serialized model message (`Langid__LanguageIdentifier` of
langid.pb-c.h; the generated protobuf sources are not part of the material).
Its logical schema, per spec §3/§4.4: declared counts, the flattened
transition table (`num_states × 256`), the emission-count and emission-offset
arrays (length `num_states`), the emission list, the prior array
(length `num_langs`), the row-major likelihood matrix
(`num_feats × num_langs`) and the class names. -/
structure Msg where
  num_states : Nat
  num_feats : Nat
  num_langs : Nat
  tk_nextmove : List Nat
  tk_output_c : List Nat
  tk_output_s : List Nat
  tk_output : List Nat
  nb_pc : List ℚ
  nb_ptc : List ℚ
  nb_classes : List String

/-- Modelled from the spec: the internal-shape validity of a serialized
message (spec §3 invariants plus §4.4 "array lengths inconsistent with
declared counts"): positive counts, each array's length matching its declared
count, every transition target a valid state index, every emission range
inside the emission list, and every emitted feature index in range. -/
def Msg.wellFormed (m : Msg) : Bool :=
  decide (0 < m.num_states) && decide (0 < m.num_feats) && decide (0 < m.num_langs) &&
  (m.tk_nextmove.length == m.num_states * 256) &&
  (m.tk_output_c.length == m.num_states) &&
  (m.tk_output_s.length == m.num_states) &&
  (m.nb_pc.length == m.num_langs) &&
  (m.nb_ptc.length == m.num_feats * m.num_langs) &&
  (m.nb_classes.length == m.num_langs) &&
  m.tk_nextmove.all (fun t => t < m.num_states) &&
  (List.range m.num_states).all
    (fun s => m.tk_output_s.getD s 0 + m.tk_output_c.getD s 0 ≤ m.tk_output.length) &&
  m.tk_output.all (fun f => f < m.num_feats)

/-- Modelled from the spec: `langid__language_identifier__unpack` (generated
protobuf code, absent from the material).  Spec §4.4: the load "fails fatally
when ... the serialized message fails to parse/validate its internal shape";
we abstract the byte-level wire format and model unpacking as returning the
message exactly when its internal shape is valid. -/
def unpack (m : Msg) : Option Msg :=
  if m.wellFormed then some m else none

/-- `load_identifier` of liblangid.c: unpack the message; on unpack failure
the C code `exit(-1)`s (embedded as `none`); otherwise build the
`LanguageIdentifier` whose table pointers alias the message arrays (the
pointer casts become `List.getD` reads at the same flat offsets). -/
def load_identifier (file : Msg) : Option LanguageIdentifier :=
  match unpack file with
  | none => none
  | some msg => some
      { num_feats := msg.num_feats
        num_langs := msg.num_langs
        num_states := msg.num_states
        tk_nextmove := fun s b => msg.tk_nextmove.getD (s * 256 + b) 0
        tk_output_c := fun s => msg.tk_output_c.getD s 0
        tk_output_s := fun s => msg.tk_output_s.getD s 0
        tk_output := fun k => msg.tk_output.getD k 0
        nb_pc := fun j => msg.nb_pc.getD j 0
        nb_ptc := fun k => msg.nb_ptc.getD k 0
        nb_classes := fun j => msg.nb_classes.getD j "" }

/-- A small concrete model for exercising the theorems: two automaton states
where byte 97 sends state 0 to state 1 and every other transition returns to
state 0; state 1 emits feature 0; two languages with priors 0 and
likelihoods 1 and -1 for feature 0. -/
def exLid : LanguageIdentifier where
  num_feats := 1
  num_langs := 2
  num_states := 2
  tk_nextmove := fun s b => if s = 0 ∧ b = 97 then 1 else 0
  tk_output_c := fun s => if s = 1 then 1 else 0
  tk_output_s := fun _ => 0
  tk_output := fun _ => 0
  nb_pc := fun _ => 0
  nb_ptc := fun k => [(1 : ℚ), -1].getD k 0
  nb_classes := fun i => ["lang0", "lang1"].getD i ""

/-- A small concrete model with distinct priors and names, for exercising the
empty-input and lookup theorems. -/
def exLid2 : LanguageIdentifier where
  num_feats := 1
  num_langs := 2
  num_states := 1
  tk_nextmove := fun _ _ => 0
  tk_output_c := fun _ => 0
  tk_output_s := fun _ => 0
  tk_output := fun _ => 0
  nb_pc := fun j => [(3 : ℚ), 5].getD j 0
  nb_ptc := fun _ => 0
  nb_classes := fun i => ["en", "de"].getD i ""

/-- A concrete well-formed serialized message: one state whose every
transition returns to state 0, no emissions, two languages. -/
def exMsgGood : Msg where
  num_states := 1
  num_feats := 1
  num_langs := 2
  tk_nextmove := List.replicate 256 0
  tk_output_c := [0]
  tk_output_s := [0]
  tk_output := []
  nb_pc := [1, 2]
  nb_ptc := [0, 0]
  nb_classes := ["en", "de"]

/-- A concrete structurally invalid serialized message: it declares two
automaton states but its flattened transition table holds only 256 entries
(one state's worth), the inconsistency named by the spec. -/
def exMsgBad : Msg where
  num_states := 2
  num_feats := 1
  num_langs := 2
  tk_nextmove := List.replicate 256 0
  tk_output_c := [0, 0]
  tk_output_s := [0, 0]
  tk_output := []
  nb_pc := [1, 2]
  nb_ptc := [0, 0]
  nb_classes := ["en", "de"]

/-! ### Lemmas about the sparse accumulator -/

theorem SparseSet.keys_add (s : SparseSet) (i d : Nat) :
    (s.add i d).keys = s.keys ∨ ((s.add i d).keys = s.keys ++ [i] ∧ i ∉ s.keys) := by
  by_cases h : (List.any s fun p => p.1 == i) = true
  · left
    rw [SparseSet.add, if_pos h]
    simp only [SparseSet.keys, List.map_map]
    apply List.map_congr_left
    intro p _
    by_cases hp : p.1 = i <;> simp [hp]
  · right
    rw [SparseSet.add, if_neg h]
    simp only [SparseSet.keys, List.map_append]
    refine ⟨rfl, ?_⟩
    simp only [List.any_eq_true, not_exists, not_and] at h
    simp only [List.mem_map, not_exists, not_and]
    intro p hp
    have := h p hp
    simpa using this

theorem SparseSet.nodup_keys_add (s : SparseSet) (i d : Nat) (h : s.keys.Nodup) :
    ((s.add i d).keys).Nodup := by
  rcases SparseSet.keys_add s i d with heq | ⟨heq, hni⟩
  · rw [heq]; exact h
  · rw [heq]
    simp [List.nodup_append, h, hni]

theorem SparseSet.mem_keys_add (s : SparseSet) (i d j : Nat)
    (h : j ∈ (s.add i d).keys) : j ∈ s.keys ∨ j = i := by
  rcases SparseSet.keys_add s i d with heq | ⟨heq, _⟩
  · rw [heq] at h; exact Or.inl h
  · rw [heq] at h
    rcases List.mem_append.1 h with h1 | h1
    · exact Or.inl h1
    · simp at h1; exact Or.inr h1

theorem SparseSet.mem_keys_iff_any (s : SparseSet) (i : Nat) :
    i ∈ SparseSet.keys s ↔ (List.any s fun p => p.1 == i) = true := by
  constructor
  · intro h
    rcases List.mem_map.1 h with ⟨p, hp, hpi⟩
    exact List.any_eq_true.2 ⟨p, hp, by simpa using hpi⟩
  · intro h
    rcases List.any_eq_true.1 h with ⟨p, hp, hpi⟩
    exact List.mem_map.2 ⟨p, hp, by simpa using hpi⟩

theorem SparseSet.countOf_eq_zero_of_not_mem (s : SparseSet) (i : Nat)
    (h : i ∉ SparseSet.keys s) : SparseSet.countOf s i = 0 := by
  induction s with
  | nil => rfl
  | cons p rest ih =>
      simp only [SparseSet.keys, List.map_cons, List.mem_cons, not_or] at h
      have hne : p.1 ≠ i := fun hh => h.1 hh.symm
      simp only [SparseSet.countOf, if_neg hne, ih h.2]

theorem SparseSet.keys_cons (p : Nat × Nat) (rest : SparseSet) :
    SparseSet.keys (p :: rest) = p.1 :: SparseSet.keys rest := rfl

theorem SparseSet.countOf_append (s t : SparseSet) (j : Nat) :
    SparseSet.countOf (s ++ t) j = SparseSet.countOf s j + SparseSet.countOf t j := by
  induction s with
  | nil => simp [SparseSet.countOf]
  | cons p rest ih =>
      simp only [List.cons_append, SparseSet.countOf, List.append_eq]
      rw [ih]
      omega

theorem SparseSet.countOf_map_bump (rest : SparseSet) (i d j : Nat)
    (h : (SparseSet.keys rest).Nodup) :
    SparseSet.countOf (List.map (fun p => if p.1 == i then (p.1, p.2 + d) else p) rest) j
      = SparseSet.countOf rest j
        + (if j = i ∧ i ∈ SparseSet.keys rest then d else 0) := by
  induction rest with
  | nil => simp [SparseSet.countOf, SparseSet.keys]
  | cons p rest ih =>
      rw [SparseSet.keys_cons, List.nodup_cons] at h
      have ih2 := ih h.2
      rw [List.map_cons, SparseSet.keys_cons]
      by_cases hp : p.1 = i
      · have hrest : i ∉ SparseSet.keys rest := by rw [← hp]; exact h.1
        have hbeq : (p.1 == i) = true := by simpa using hp
        simp only [hbeq, if_true, SparseSet.countOf, ih2]
        by_cases hj : j = i
        · have hpj : p.1 = j := by rw [hp, hj]
          simp [hpj, hj, hrest, hp]
          omega
        · have hpj : p.1 ≠ j := by rw [hp]; exact fun hh => hj hh.symm
          simp [hpj, hj]
      · have hbeq : (p.1 == i) = false := by simpa using hp
        have hip : i ≠ p.1 := fun hh => hp hh.symm
        simp only [hbeq, Bool.false_eq_true, if_false, SparseSet.countOf, ih2,
          List.mem_cons, hip, false_or]
        omega

theorem SparseSet.countOf_add (s : SparseSet) (i d j : Nat)
    (h : (SparseSet.keys s).Nodup) :
    SparseSet.countOf (SparseSet.add s i d) j
      = SparseSet.countOf s j + if j = i then d else 0 := by
  by_cases hc : (List.any s fun p => p.1 == i) = true
  · have hmem : i ∈ SparseSet.keys s := (SparseSet.mem_keys_iff_any s i).2 hc
    rw [SparseSet.add, if_pos hc, SparseSet.countOf_map_bump s i d j h]
    by_cases hj : j = i <;> simp [hj, hmem]
  · have hni : i ∉ SparseSet.keys s := fun hm =>
      hc ((SparseSet.mem_keys_iff_any s i).1 hm)
    rw [SparseSet.add, if_neg hc, SparseSet.countOf_append]
    by_cases hj : j = i
    · subst hj
      rw [SparseSet.countOf_eq_zero_of_not_mem s j hni]
      simp [SparseSet.countOf]
    · have hij : i ≠ j := fun hh => hj hh.symm
      simp [SparseSet.countOf, hj, hij]

/-! ### Lemmas about the automaton walk and the emission folds -/

theorem walk_nodup (lid : LanguageIdentifier) (text : List Nat) :
    ∀ (st : Nat) (acc : SparseSet), (SparseSet.keys acc).Nodup →
      (SparseSet.keys (List.foldl
        (fun (p : Nat × SparseSet) b =>
          (lid.tk_nextmove p.1 b, SparseSet.add p.2 (lid.tk_nextmove p.1 b) 1))
        (st, acc) text).2).Nodup := by
  induction text with
  | nil => intro st acc h; exact h
  | cons b rest ih =>
      intro st acc h
      simp only [List.foldl_cons]
      exact ih (lid.tk_nextmove st b) _
        (SparseSet.nodup_keys_add acc (lid.tk_nextmove st b) 1 h)

theorem walk_countOf (lid : LanguageIdentifier) (text : List Nat) :
    ∀ (st : Nat) (acc : SparseSet) (s : Nat), (SparseSet.keys acc).Nodup →
      SparseSet.countOf (List.foldl
        (fun (p : Nat × SparseSet) b =>
          (lid.tk_nextmove p.1 b, SparseSet.add p.2 (lid.tk_nextmove p.1 b) 1))
        (st, acc) text).2 s
      = SparseSet.countOf acc s + (statesFrom lid st text).count s := by
  induction text with
  | nil => intro st acc s _; simp [statesFrom]
  | cons b rest ih =>
      intro st acc s h
      simp only [List.foldl_cons]
      rw [ih (lid.tk_nextmove st b) _ s
        (SparseSet.nodup_keys_add acc (lid.tk_nextmove st b) 1 h)]
      rw [SparseSet.countOf_add acc (lid.tk_nextmove st b) 1 s h]
      simp only [statesFrom, List.count_cons]
      by_cases hs : s = lid.tk_nextmove st b
      · simp [hs]
        omega
      · have : ¬ (lid.tk_nextmove st b = s) := fun hh => hs hh.symm
        simp [hs, this]

theorem walk_keys_mem (lid : LanguageIdentifier) (text : List Nat) :
    ∀ (st : Nat) (acc : SparseSet) (j : Nat),
      j ∈ SparseSet.keys (List.foldl
        (fun (p : Nat × SparseSet) b =>
          (lid.tk_nextmove p.1 b, SparseSet.add p.2 (lid.tk_nextmove p.1 b) 1))
        (st, acc) text).2 →
      j ∈ SparseSet.keys acc ∨ j ∈ statesFrom lid st text := by
  induction text with
  | nil => intro st acc j h; exact Or.inl h
  | cons b rest ih =>
      intro st acc j h
      simp only [List.foldl_cons] at h
      rcases ih (lid.tk_nextmove st b) _ j h with h1 | h1
      · rcases SparseSet.mem_keys_add acc (lid.tk_nextmove st b) 1 j h1 with h2 | h2
        · exact Or.inl h2
        · right
          simp [statesFrom, h2]
      · right
        simp [statesFrom, h1]

theorem addFold_nodup (g : Nat → Nat) (c : Nat) (l : List Nat) :
    ∀ (fv : SparseSet), (SparseSet.keys fv).Nodup →
      (SparseSet.keys (List.foldl (fun a x => SparseSet.add a (g x) c) fv l)).Nodup := by
  induction l with
  | nil => intro fv h; exact h
  | cons x rest ih =>
      intro fv h
      simp only [List.foldl_cons]
      exact ih _ (SparseSet.nodup_keys_add fv (g x) c h)

theorem addFold_countOf (g : Nat → Nat) (c : Nat) (l : List Nat) :
    ∀ (fv : SparseSet) (f : Nat), (SparseSet.keys fv).Nodup →
      SparseSet.countOf (List.foldl (fun a x => SparseSet.add a (g x) c) fv l) f
        = SparseSet.countOf fv f + c * (List.map g l).count f := by
  induction l with
  | nil => intro fv f _; simp
  | cons x rest ih =>
      intro fv f h
      simp only [List.foldl_cons]
      rw [ih _ f (SparseSet.nodup_keys_add fv (g x) c h)]
      rw [SparseSet.countOf_add fv (g x) c f h]
      simp only [List.map_cons, List.count_cons]
      by_cases hf : f = g x
      · simp [hf]
        ring
      · have : ¬ (g x = f) := fun hh => hf hh.symm
        simp [hf, this]

theorem addFold_keys_mem (g : Nat → Nat) (c : Nat) (l : List Nat) :
    ∀ (fv : SparseSet) (j : Nat),
      j ∈ SparseSet.keys (List.foldl (fun a x => SparseSet.add a (g x) c) fv l) →
      j ∈ SparseSet.keys fv ∨ j ∈ List.map g l := by
  induction l with
  | nil => intro fv j h; exact Or.inl h
  | cons x rest ih =>
      intro fv j h
      simp only [List.foldl_cons] at h
      rcases ih _ j h with h1 | h1
      · rcases SparseSet.mem_keys_add fv (g x) c j h1 with h2 | h2
        · exact Or.inl h2
        · right; simp [h2]
      · right
        simp only [List.map_cons, List.mem_cons]
        exact Or.inr h1

theorem fvFold_nodup (lid : LanguageIdentifier) (sv : List (Nat × Nat)) :
    ∀ (fv : SparseSet), (SparseSet.keys fv).Nodup →
      (SparseSet.keys (List.foldl
        (fun acc (mc : Nat × Nat) =>
          List.foldl
            (fun acc2 j => SparseSet.add acc2 (lid.tk_output (lid.tk_output_s mc.1 + j)) mc.2)
            acc (List.range (lid.tk_output_c mc.1)))
        fv sv)).Nodup := by
  induction sv with
  | nil => intro fv h; exact h
  | cons mc rest ih =>
      intro fv h
      simp only [List.foldl_cons]
      exact ih _ (addFold_nodup (fun j => lid.tk_output (lid.tk_output_s mc.1 + j)) mc.2
        (List.range (lid.tk_output_c mc.1)) fv h)

theorem fvFold_countOf (lid : LanguageIdentifier) (sv : List (Nat × Nat)) :
    ∀ (fv : SparseSet) (f : Nat), (SparseSet.keys fv).Nodup →
      SparseSet.countOf (List.foldl
        (fun acc (mc : Nat × Nat) =>
          List.foldl
            (fun acc2 j => SparseSet.add acc2 (lid.tk_output (lid.tk_output_s mc.1 + j)) mc.2)
            acc (List.range (lid.tk_output_c mc.1)))
        fv sv) f
      = SparseSet.countOf fv f
        + (List.map (fun mc : Nat × Nat => mc.2 * (emisList lid mc.1).count f) sv).sum := by
  induction sv with
  | nil => intro fv f _; simp
  | cons mc rest ih =>
      intro fv f h
      simp only [List.foldl_cons]
      rw [ih _ f (addFold_nodup (fun j => lid.tk_output (lid.tk_output_s mc.1 + j)) mc.2
        (List.range (lid.tk_output_c mc.1)) fv h)]
      rw [addFold_countOf (fun j => lid.tk_output (lid.tk_output_s mc.1 + j)) mc.2
        (List.range (lid.tk_output_c mc.1)) fv f h]
      simp only [List.map_cons, List.sum_cons, emisList]
      omega

theorem fvFold_keys_mem (lid : LanguageIdentifier) (sv : List (Nat × Nat)) :
    ∀ (fv : SparseSet) (j : Nat),
      j ∈ SparseSet.keys (List.foldl
        (fun acc (mc : Nat × Nat) =>
          List.foldl
            (fun acc2 j => SparseSet.add acc2 (lid.tk_output (lid.tk_output_s mc.1 + j)) mc.2)
            acc (List.range (lid.tk_output_c mc.1)))
        fv sv) →
      j ∈ SparseSet.keys fv ∨ ∃ mc ∈ sv, j ∈ emisList lid mc.1 := by
  induction sv with
  | nil => intro fv j h; exact Or.inl h
  | cons mc rest ih =>
      intro fv j h
      simp only [List.foldl_cons] at h
      rcases ih _ j h with h1 | h1
      · rcases addFold_keys_mem (fun j => lid.tk_output (lid.tk_output_s mc.1 + j)) mc.2
          (List.range (lid.tk_output_c mc.1)) fv j h1 with h2 | h2
        · exact Or.inl h2
        · right
          exact ⟨mc, List.mem_cons_self mc rest, by simpa [emisList] using h2⟩
      · right
        rcases h1 with ⟨mc2, hmc2, hj2⟩
        exact ⟨mc2, List.mem_cons_of_mem mc hmc2, hj2⟩

theorem text_to_fv_fst_eq (lid : LanguageIdentifier) (text : List Nat) (sv fv : SparseSet) :
    (text_to_fv lid text sv fv).1
      = (List.foldl
          (fun (p : Nat × SparseSet) b =>
            (lid.tk_nextmove p.1 b, SparseSet.add p.2 (lid.tk_nextmove p.1 b) 1))
          (0, ([] : SparseSet)) text).2 := rfl

theorem text_to_fv_snd_eq (lid : LanguageIdentifier) (text : List Nat) (sv fv : SparseSet) :
    (text_to_fv lid text sv fv).2
      = List.foldl
          (fun acc (mc : Nat × Nat) =>
            List.foldl
              (fun acc2 j => SparseSet.add acc2 (lid.tk_output (lid.tk_output_s mc.1 + j)) mc.2)
              acc (List.range (lid.tk_output_c mc.1)))
          ([] : SparseSet) (text_to_fv lid text sv fv).1 := rfl

/-! ### Lemmas about the argmax and max loops -/

theorem pred_loop_inv (l : List ℚ) (k : Nat) :
    logprob_to_pred_n l (k + 1) ≤ k
    ∧ (∀ i, i ≤ k → l.getD i 0 ≤ l.getD (logprob_to_pred_n l (k + 1)) 0)
    ∧ (∀ i, i < logprob_to_pred_n l (k + 1) →
        l.getD i 0 < l.getD (logprob_to_pred_n l (k + 1)) 0) := by
  induction k with
  | zero =>
      refine ⟨Nat.le_refl 0, ?_, ?_⟩
      · intro i hi
        interval_cases i
        exact le_refl _
      · intro i hi
        simp only [logprob_to_pred_n] at hi
        simp at hi
  | succ k ih =>
      have hstep : logprob_to_pred_n l (k + 1 + 1)
          = if l.getD (1 + k) 0 > l.getD (logprob_to_pred_n l (k + 1)) 0
            then 1 + k else logprob_to_pred_n l (k + 1) := by
        simp only [logprob_to_pred_n, Nat.add_sub_cancel]
        rw [List.range'_1_concat, List.foldl_append]
        simp
      obtain ⟨ihm, ihle, ihlt⟩ := ih
      by_cases hgt : l.getD (1 + k) 0 > l.getD (logprob_to_pred_n l (k + 1)) 0
      · rw [hstep, if_pos hgt]
        refine ⟨by omega, ?_, ?_⟩
        · intro i hi
          by_cases hik : i ≤ k
          · exact le_of_lt (lt_of_le_of_lt (ihle i hik) hgt)
          · have : i = 1 + k := by omega
            rw [this]
        · intro i hi
          have hik : i ≤ k := by omega
          exact lt_of_le_of_lt (ihle i hik) hgt
      · rw [hstep, if_neg hgt]
        refine ⟨by omega, ?_, ?_⟩
        · intro i hi
          by_cases hik : i ≤ k
          · exact ihle i hik
          · have : i = 1 + k := by omega
            rw [this]
            exact le_of_not_lt hgt
        · exact ihlt

theorem max_loop_inv (l : List ℚ) (k : Nat) :
    (∃ i, i ≤ k ∧ l.getD i 0 = normalize_max l (k + 1))
    ∧ (∀ i, i ≤ k → l.getD i 0 ≤ normalize_max l (k + 1)) := by
  induction k with
  | zero =>
      refine ⟨⟨0, Nat.le_refl 0, rfl⟩, ?_⟩
      intro i hi
      interval_cases i
      exact le_refl _
  | succ k ih =>
      have hstep : normalize_max l (k + 1 + 1)
          = if normalize_max l (k + 1) < l.getD (1 + k) 0
            then l.getD (1 + k) 0 else normalize_max l (k + 1) := by
        simp only [normalize_max, Nat.add_sub_cancel]
        rw [List.range'_1_concat, List.foldl_append]
        simp
      obtain ⟨⟨i0, hi0, hi0e⟩, ihle⟩ := ih
      by_cases hlt : normalize_max l (k + 1) < l.getD (1 + k) 0
      · rw [hstep, if_pos hlt]
        refine ⟨⟨1 + k, by omega, rfl⟩, ?_⟩
        intro i hi
        by_cases hik : i ≤ k
        · exact le_of_lt (lt_of_le_of_lt (ihle i hik) hlt)
        · have : i = 1 + k := by omega
          rw [this]
      · rw [hstep, if_neg hlt]
        refine ⟨⟨i0, by omega, hi0e⟩, ?_⟩
        intro i hi
        by_cases hik : i ≤ k
        · exact ihle i hik
        · have : i = 1 + k := by omega
          rw [this]
          exact le_of_not_lt hlt

theorem pred_loop_shift (l l' : List ℚ) (c : ℚ) (n : Nat)
    (h : ∀ i, i < n → l'.getD i 0 = l.getD i 0 - c) :
    ∀ k, k < n → logprob_to_pred_n l' (k + 1) = logprob_to_pred_n l (k + 1) := by
  intro k
  induction k with
  | zero =>
      intro _
      simp [logprob_to_pred_n]
  | succ k ih =>
      intro hk
      have ihk := ih (by omega)
      have hstep : ∀ ll : List ℚ, logprob_to_pred_n ll (k + 1 + 1)
          = if ll.getD (1 + k) 0 > ll.getD (logprob_to_pred_n ll (k + 1)) 0
            then 1 + k else logprob_to_pred_n ll (k + 1) := by
        intro ll
        simp only [logprob_to_pred_n, Nat.add_sub_cancel]
        rw [List.range'_1_concat, List.foldl_append]
        simp
      rw [hstep l, hstep l', ihk]
      have hmlt : logprob_to_pred_n l (k + 1) ≤ k := (pred_loop_inv l k).1
      rw [h (1 + k) (by omega), h (logprob_to_pred_n l (k + 1)) (by omega)]
      by_cases hgt : l.getD (1 + k) 0 > l.getD (logprob_to_pred_n l (k + 1)) 0
      · rw [if_pos hgt, if_pos (by linarith)]
      · rw [if_neg hgt, if_neg (by intro hh; apply hgt; linarith)]

theorem max_loop_shift (l l' : List ℚ) (c : ℚ) (n : Nat)
    (h : ∀ i, i < n → l'.getD i 0 = l.getD i 0 - c) :
    ∀ k, k < n → normalize_max l' (k + 1) = normalize_max l (k + 1) - c := by
  intro k
  induction k with
  | zero =>
      intro hk
      simp only [normalize_max, Nat.sub_self, List.range', List.foldl_nil]
      exact h 0 hk
  | succ k ih =>
      intro hk
      have ihk := ih (by omega)
      have hstep : ∀ ll : List ℚ, normalize_max ll (k + 1 + 1)
          = if normalize_max ll (k + 1) < ll.getD (1 + k) 0
            then ll.getD (1 + k) 0 else normalize_max ll (k + 1) := by
        intro ll
        simp only [normalize_max, Nat.add_sub_cancel]
        rw [List.range'_1_concat, List.foldl_append]
        simp
      rw [hstep l, hstep l', ihk, h (1 + k) (by omega)]
      by_cases hlt : normalize_max l (k + 1) < l.getD (1 + k) 0
      · rw [if_pos hlt, if_pos (by linarith)]
      · rw [if_neg hlt, if_neg (by intro hh; apply hlt; linarith)]

theorem getD_map_range (f : Nat → ℚ) (n i : Nat) (h : i < n) :
    (List.map f (List.range n)).getD i 0 = f i := by
  rw [List.getD_eq_getElem?_getD]
  rw [List.getElem?_map, List.getElem?_range h]
  rfl

theorem normalize_getD (l : List ℚ) (n i : Nat) (h : i < n) :
    (normalize_logprobs_n l n).getD i 0 = l.getD i 0 - normalize_max l n := by
  rw [normalize_logprobs_n]
  exact getD_map_range (fun i => l.getD i 0 - normalize_max l n) n i h

theorem foldl_add_sum (f : Nat × Nat → ℚ) (l : List (Nat × Nat)) :
    ∀ c : ℚ, List.foldl (fun acc mc => acc + f mc) c l = c + (List.map f l).sum := by
  induction l with
  | nil => intro c; simp
  | cons x rest ih =>
      intro c
      simp only [List.foldl_cons, List.map_cons, List.sum_cons, ih]
      ring

theorem getD_lt_of_all (l : List Nat) (bound : Nat)
    (hall : ∀ x ∈ l, x < bound) (i : Nat) (hi : i < l.length) :
    l.getD i 0 < bound := by
  rw [List.getD_eq_getElem?_getD, List.getElem?_eq_getElem hi]
  exact hall _ (List.getElem_mem hi)

theorem find?_range'_first (p : Nat → Bool) (i : Nat) :
    ∀ (k s : Nat), s ≤ i → i < s + k → p i = true →
      (∀ j, s ≤ j → j < i → p j = false) →
      List.find? p (List.range' s k) = some i := by
  intro k
  induction k with
  | zero => intro s h1 h2; omega
  | succ k ih =>
      intro s h1 h2 h3 h4
      rw [List.range'_succ]
      by_cases hs : s = i
      · subst hs
        exact List.find?_cons_of_pos _ h3
      · have hlt : s < i := lt_of_le_of_ne h1 hs
        rw [List.find?_cons_of_neg]
        · exact ih (s + 1) (by omega) (by omega) h3
            (fun j hj1 hj2 => h4 j (by omega) hj2)
        · rw [h4 s (le_refl s) hlt]
          simp

theorem statesFrom_lt (lid : LanguageIdentifier) (ns : Nat)
    (htrans : ∀ s b, s < ns → b < 256 → lid.tk_nextmove s b < ns) :
    ∀ (text : List Nat) (st : Nat), st < ns → (∀ b ∈ text, b < 256) →
      ∀ s ∈ statesFrom lid st text, s < ns := by
  intro text
  induction text with
  | nil => intro st _ _ s hs; simp [statesFrom] at hs
  | cons b rest ih =>
      intro st hst hb s hs
      simp only [statesFrom, List.mem_cons] at hs
      have hbyte : b < 256 := hb b (List.mem_cons_self b rest)
      have hnext : lid.tk_nextmove st b < ns := htrans st b hst hbyte
      rcases hs with hs | hs
      · rw [hs]; exact hnext
      · exact ih (lid.tk_nextmove st b) hnext
          (fun b2 hb2 => hb b2 (List.mem_cons_of_mem b hb2)) s hs

/-! ### Claim theorems -/

/-- C1: for every model and feature vector, `fv_to_logprob` produces, for each
`lang < num_langs`, `logprob[lang] = prior[lang] + Σ over active (feat, count)
pairs of count * likelihood[feat][lang]`, with `likelihood` read row-major as
a `num_feats × num_langs` matrix. -/
theorem fv_to_logprob_correct (lid : LanguageIdentifier) (fv : SparseSet) (lang : Nat)
    (h : lang < lid.num_langs) :
    (fv_to_logprob lid fv).getD lang 0
      = lid.nb_pc lang
        + (List.map (fun mc : Nat × Nat => (mc.2 : ℚ) * likelihood lid mc.1 lang) fv).sum := by
  rw [fv_to_logprob, getD_map_range _ _ _ h]
  rw [foldl_add_sum
    (fun mc => (mc.2 : ℚ) * lid.nb_ptc (mc.1 * lid.num_langs + lang)) fv (lid.nb_pc lang)]
  rfl

/-- Witness for C1 at a concrete model, feature vector and language. -/
theorem fv_to_logprob_correct_witness :
    1 < exLid.num_langs ∧
    (fv_to_logprob exLid [(0, 2)]).getD 1 0
      = exLid.nb_pc 1
        + (List.map (fun mc : Nat × Nat => (mc.2 : ℚ) * likelihood exLid mc.1 1) [(0, 2)]).sum :=
  ⟨by decide, fv_to_logprob_correct exLid [(0, 2)] 1 (by decide)⟩

/-- C2: `text_to_fv` walks the text from automaton state 0, recording one
occurrence of each *resulting* state, so the state-vector count of any state
equals its number of occurrences along the walk; the feature-vector count of
any feature is the sum, over active states `(s, c)`, of `c` times the number
of occurrences of the feature in `s`'s emission range.  Both accumulators are
cleared first: the result is the same for every incoming scratch content. -/
theorem text_to_fv_correct (lid : LanguageIdentifier) (text : List Nat) (sv fv : SparseSet) :
    (∀ s : Nat, SparseSet.countOf (text_to_fv lid text sv fv).1 s
        = (statesFrom lid 0 text).count s)
    ∧ (∀ f : Nat, SparseSet.countOf (text_to_fv lid text sv fv).2 f
        = (List.map (fun mc : Nat × Nat => mc.2 * (emisList lid mc.1).count f)
            (text_to_fv lid text sv fv).1).sum) := by
  constructor
  · intro s
    rw [text_to_fv_fst_eq, walk_countOf lid text 0 [] s (by simp [SparseSet.keys])]
    simp [SparseSet.countOf]
  · intro f
    rw [text_to_fv_snd_eq]
    rw [fvFold_countOf lid (text_to_fv lid text sv fv).1 [] f (by simp [SparseSet.keys])]
    simp [SparseSet.countOf]

/-- C9: `identify` (and the whole extraction pipeline) gives identical results
on identical model and text whatever the prior contents of the scratch
accumulators: they are cleared at the start of every extraction, so a second
call — whose scratch holds the first call's leftovers — returns the same. -/
theorem identify_no_hidden_state (lid : LanguageIdentifier) (text : List Nat)
    (sv1 fv1 sv2 fv2 : SparseSet) :
    identify lid text sv1 fv1 = identify lid text sv2 fv2
    ∧ identify_logprobs lid text sv1 fv1 = identify_logprobs lid text sv2 fv2
    ∧ text_to_fv lid text sv1 fv1 = text_to_fv lid text sv2 fv2 :=
  ⟨rfl, rfl, rfl⟩

/-- C5: on a log-probability vector of positive length `n`,
`logprob_to_pred_n` returns an index of the maximum value, and every index
below the returned one holds a strictly smaller value (lowest index wins
ties, deterministically). -/
theorem logprob_to_pred_n_argmax (l : List ℚ) (n : Nat)
    (h1 : n = l.length) (h2 : 0 < n) :
    logprob_to_pred_n l n < n
    ∧ (∀ i, i < n → l.getD i 0 ≤ l.getD (logprob_to_pred_n l n) 0)
    ∧ (∀ i, i < logprob_to_pred_n l n →
        l.getD i 0 < l.getD (logprob_to_pred_n l n) 0) := by
  obtain ⟨k, rfl⟩ : ∃ k, n = k + 1 := ⟨n - 1, by omega⟩
  obtain ⟨hm, hle, hlt⟩ := pred_loop_inv l k
  exact ⟨by omega, fun i hi => hle i (by omega), hlt⟩

/-- Witness for C5 on a vector with a tie between indices 1 and 2. -/
theorem logprob_to_pred_n_argmax_witness :
    (3 = [(1 : ℚ), 3, 3].length ∧ 0 < 3) ∧
    (logprob_to_pred_n [(1 : ℚ), 3, 3] 3 < 3
     ∧ (∀ i, i < 3 →
         ([(1 : ℚ), 3, 3]).getD i 0
           ≤ ([(1 : ℚ), 3, 3]).getD (logprob_to_pred_n [(1 : ℚ), 3, 3] 3) 0)
     ∧ (∀ i, i < logprob_to_pred_n [(1 : ℚ), 3, 3] 3 →
         ([(1 : ℚ), 3, 3]).getD i 0
           < ([(1 : ℚ), 3, 3]).getD (logprob_to_pred_n [(1 : ℚ), 3, 3] 3) 0)) :=
  ⟨⟨by decide, by decide⟩,
    logprob_to_pred_n_argmax [(1 : ℚ), 3, 3] 3 (by decide) (by decide)⟩

/-- C6: `normalize_logprobs_n` on a vector of positive length `n` subtracts
the maximum entry from every entry, so afterwards some entry is exactly 0 and
every entry is ≤ 0; and it is idempotent. -/
theorem normalize_logprobs_n_correct (l : List ℚ) (n : Nat)
    (h1 : n = l.length) (h2 : 0 < n) :
    (∃ i, i < n ∧ (normalize_logprobs_n l n).getD i 0 = 0)
    ∧ (∀ i, i < n → (normalize_logprobs_n l n).getD i 0 ≤ 0)
    ∧ normalize_logprobs_n (normalize_logprobs_n l n) n = normalize_logprobs_n l n := by
  obtain ⟨k, rfl⟩ : ∃ k, n = k + 1 := ⟨n - 1, by omega⟩
  obtain ⟨⟨i0, hi0, hi0e⟩, hle⟩ := max_loop_inv l k
  refine ⟨⟨i0, by omega, ?_⟩, ?_, ?_⟩
  · rw [normalize_getD l (k + 1) i0 (by omega), hi0e]
    ring
  · intro i hi
    rw [normalize_getD l (k + 1) i hi]
    have := hle i (by omega)
    linarith
  · have hshift : ∀ i, i < k + 1 →
        (normalize_logprobs_n l (k + 1)).getD i 0
          = l.getD i 0 - normalize_max l (k + 1) :=
      fun i hi => normalize_getD l (k + 1) i hi
    have hmax0 : normalize_max (normalize_logprobs_n l (k + 1)) (k + 1) = 0 := by
      rw [max_loop_shift l (normalize_logprobs_n l (k + 1)) (normalize_max l (k + 1))
        (k + 1) hshift k (by omega)]
      ring
    conv_lhs => rw [normalize_logprobs_n]
    rw [hmax0]
    conv_rhs => rw [normalize_logprobs_n]
    apply List.map_congr_left
    intro i hi
    rw [normalize_getD l (k + 1) i (List.mem_range.1 hi)]
    ring

/-- Witness for C6 at a concrete vector. -/
theorem normalize_logprobs_n_correct_witness :
    (3 = [(1 : ℚ), 3, 2].length ∧ 0 < 3) ∧
    ((∃ i, i < 3 ∧ (normalize_logprobs_n [(1 : ℚ), 3, 2] 3).getD i 0 = 0)
     ∧ (∀ i, i < 3 → (normalize_logprobs_n [(1 : ℚ), 3, 2] 3).getD i 0 ≤ 0)
     ∧ normalize_logprobs_n (normalize_logprobs_n [(1 : ℚ), 3, 2] 3) 3
         = normalize_logprobs_n [(1 : ℚ), 3, 2] 3) :=
  ⟨⟨by decide, by decide⟩,
    normalize_logprobs_n_correct [(1 : ℚ), 3, 2] 3 (by decide) (by decide)⟩

/-- C10: `normalize_logprobs_n` subtracts the same constant from every entry,
so all pairwise differences are unchanged, and `logprob_to_pred_n` returns
the same index before and after normalization. -/
theorem normalize_preserves_argmax (l : List ℚ) (n : Nat)
    (h1 : n = l.length) (h2 : 0 < n) :
    (∀ i, i < n → ∀ j, j < n →
      (normalize_logprobs_n l n).getD i 0 - (normalize_logprobs_n l n).getD j 0
        = l.getD i 0 - l.getD j 0)
    ∧ logprob_to_pred_n (normalize_logprobs_n l n) n = logprob_to_pred_n l n := by
  obtain ⟨k, rfl⟩ : ∃ k, n = k + 1 := ⟨n - 1, by omega⟩
  constructor
  · intro i hi j hj
    rw [normalize_getD l (k + 1) i hi, normalize_getD l (k + 1) j hj]
    ring
  · exact pred_loop_shift l (normalize_logprobs_n l (k + 1)) (normalize_max l (k + 1))
      (k + 1) (fun i hi => normalize_getD l (k + 1) i hi) k (by omega)

/-- Witness for C10 at a concrete vector. -/
theorem normalize_preserves_argmax_witness :
    (3 = [(1 : ℚ), 3, 2].length ∧ 0 < 3) ∧
    ((∀ i, i < 3 → ∀ j, j < 3 →
        (normalize_logprobs_n [(1 : ℚ), 3, 2] 3).getD i 0
          - (normalize_logprobs_n [(1 : ℚ), 3, 2] 3).getD j 0
          = ([(1 : ℚ), 3, 2]).getD i 0 - ([(1 : ℚ), 3, 2]).getD j 0)
     ∧ logprob_to_pred_n (normalize_logprobs_n [(1 : ℚ), 3, 2] 3) 3
         = logprob_to_pred_n [(1 : ℚ), 3, 2] 3) :=
  ⟨⟨by decide, by decide⟩,
    normalize_preserves_argmax [(1 : ℚ), 3, 2] 3 (by decide) (by decide)⟩

/-- C4: on the empty input the feature vector is empty, the log-probability
vector is exactly the prior vector, and `identify` returns the name of a
language with maximal prior, the lowest such index on ties. -/
theorem identify_empty (lid : LanguageIdentifier) (sv fv : SparseSet)
    (h : 0 < lid.num_langs) :
    (text_to_fv lid [] sv fv).2 = ([] : SparseSet)
    ∧ identify_logprobs lid [] sv fv = List.map lid.nb_pc (List.range lid.num_langs)
    ∧ ∃ m, m < lid.num_langs
        ∧ identify lid [] sv fv = get_lang_name lid m
        ∧ (∀ i, i < lid.num_langs → lid.nb_pc i ≤ lid.nb_pc m)
        ∧ (∀ i, i < m → lid.nb_pc i < lid.nb_pc m) := by
  obtain ⟨k, hk⟩ : ∃ k, lid.num_langs = k + 1 := ⟨lid.num_langs - 1, by omega⟩
  obtain ⟨hm, hle, hlt⟩ := pred_loop_inv (List.map lid.nb_pc (List.range lid.num_langs)) k
  rw [← hk] at hm hle hlt
  refine ⟨rfl, rfl,
    logprob_to_pred_n (List.map lid.nb_pc (List.range lid.num_langs)) lid.num_langs,
    by omega, rfl, ?_, ?_⟩
  · intro i hi
    have h1 := hle i (by omega)
    rw [getD_map_range lid.nb_pc lid.num_langs i hi] at h1
    rw [getD_map_range lid.nb_pc lid.num_langs _ (by omega)] at h1
    exact h1
  · intro i hi
    have h1 := hlt i hi
    have him : logprob_to_pred_n (List.map lid.nb_pc (List.range lid.num_langs))
        lid.num_langs < lid.num_langs := by omega
    rw [getD_map_range lid.nb_pc lid.num_langs i (by omega)] at h1
    rw [getD_map_range lid.nb_pc lid.num_langs _ him] at h1
    exact h1

/-- Witness for C4 at a concrete model whose priors are 3 and 5. -/
theorem identify_empty_witness :
    0 < exLid2.num_langs ∧
    ((text_to_fv exLid2 [] [] []).2 = ([] : SparseSet)
     ∧ identify_logprobs exLid2 [] [] []
         = List.map exLid2.nb_pc (List.range exLid2.num_langs)
     ∧ ∃ m, m < exLid2.num_langs
         ∧ identify exLid2 [] [] [] = get_lang_name exLid2 m
         ∧ (∀ i, i < exLid2.num_langs → exLid2.nb_pc i ≤ exLid2.nb_pc m)
         ∧ (∀ i, i < m → exLid2.nb_pc i < exLid2.nb_pc m)) :=
  ⟨by decide, identify_empty exLid2 [] [] (by decide)⟩

/-- C7: when the class names are pairwise distinct, `get_lang_index` applied
to `nb_classes[i]` returns `i` for every `i < num_langs`. -/
theorem get_lang_index_round_trip (lid : LanguageIdentifier)
    (hdist : ∀ a, a < lid.num_langs → ∀ b, b < lid.num_langs →
      lid.nb_classes a = lid.nb_classes b → a = b)
    (i : Nat) (hi : i < lid.num_langs) :
    get_lang_index lid (lid.nb_classes i) = i := by
  have hfind : List.find? (fun j => lid.nb_classes j == lid.nb_classes i)
      (List.range lid.num_langs) = some i := by
    rw [List.range_eq_range']
    apply find?_range'_first
    · exact Nat.zero_le i
    · omega
    · simp
    · intro j hj1 hj2
      have hne : lid.nb_classes j ≠ lid.nb_classes i := by
        intro he
        have := hdist j (by omega) i hi he
        omega
      simpa using hne
  simp [get_lang_index, hfind]

/-- Witness for C7 at a concrete model with names "en" and "de". -/
theorem get_lang_index_round_trip_witness :
    ((∀ a, a < exLid2.num_langs → ∀ b, b < exLid2.num_langs →
        exLid2.nb_classes a = exLid2.nb_classes b → a = b)
     ∧ 1 < exLid2.num_langs) ∧
    get_lang_index exLid2 (exLid2.nb_classes 1) = 1 :=
  ⟨⟨by decide, by decide⟩,
    get_lang_index_round_trip exLid2 (by decide) 1 (by decide)⟩

/-- C8: `get_lang_index` returns the `(LangIndex)-1` sentinel — not a valid
index — exactly when no class name matches (exact, case-sensitive string
comparison); on a match it returns a valid index bearing that name. -/
theorem get_lang_index_sentinel (lid : LanguageIdentifier) (name : String)
    (hsize : lid.num_langs < 2 ^ 32) :
    ((∀ i, i < lid.num_langs → lid.nb_classes i ≠ name) →
      get_lang_index lid name = langIndexNotFound
      ∧ ¬ get_lang_index lid name < lid.num_langs)
    ∧ ((∃ i, i < lid.num_langs ∧ lid.nb_classes i = name) →
      get_lang_index lid name < lid.num_langs
      ∧ lid.nb_classes (get_lang_index lid name) = name) := by
  constructor
  · intro hmiss
    have hfind : List.find? (fun j => lid.nb_classes j == name)
        (List.range lid.num_langs) = none := by
      rw [List.find?_eq_none]
      intro x hx
      have hxn := hmiss x (List.mem_range.1 hx)
      simpa using hxn
    have hval : get_lang_index lid name = langIndexNotFound := by
      simp [get_lang_index, hfind]
    refine ⟨hval, ?_⟩
    rw [hval]
    have h32 : (2 : Nat) ^ 32 = 4294967296 := by norm_num
    rw [h32] at hsize
    rw [langIndexNotFound, h32]
    omega
  · rintro ⟨i, hi, hie⟩
    have hsome : (List.find? (fun j => lid.nb_classes j == name)
        (List.range lid.num_langs)).isSome := by
      rw [List.find?_isSome]
      exact ⟨i, List.mem_range.2 hi, by simp [hie]⟩
    obtain ⟨j, hj⟩ := Option.isSome_iff_exists.1 hsome
    have hjmem : j ∈ List.range lid.num_langs := List.mem_of_find?_eq_some hj
    have hjp : (lid.nb_classes j == name) = true := by
      have h2 := List.find?_some hj
      simpa using h2
    have hval : get_lang_index lid name = j := by simp [get_lang_index, hj]
    rw [hval]
    exact ⟨List.mem_range.1 hjmem, by simpa using hjp⟩

/-- Witness for C8 at a concrete model and the absent name "fr". -/
theorem get_lang_index_sentinel_witness :
    exLid2.num_langs < 2 ^ 32 ∧
    (((∀ i, i < exLid2.num_langs → exLid2.nb_classes i ≠ "fr") →
       get_lang_index exLid2 "fr" = langIndexNotFound
       ∧ ¬ get_lang_index exLid2 "fr" < exLid2.num_langs)
     ∧ ((∃ i, i < exLid2.num_langs ∧ exLid2.nb_classes i = "fr") →
       get_lang_index exLid2 "fr" < exLid2.num_langs
       ∧ exLid2.nb_classes (get_lang_index exLid2 "fr") = "fr")) :=
  ⟨by decide, get_lang_index_sentinel exLid2 "fr" (by decide)⟩

theorem load_identifier_none (file : Msg) (h : file.wellFormed = false) :
    load_identifier file = none := by
  simp [load_identifier, unpack, h]

theorem load_identifier_some (file : Msg) (h : file.wellFormed = true) :
    load_identifier file = some
      { num_feats := file.num_feats
        num_langs := file.num_langs
        num_states := file.num_states
        tk_nextmove := fun s b => file.tk_nextmove.getD (s * 256 + b) 0
        tk_output_c := fun s => file.tk_output_c.getD s 0
        tk_output_s := fun s => file.tk_output_s.getD s 0
        tk_output := fun k => file.tk_output.getD k 0
        nb_pc := fun j => file.nb_pc.getD j 0
        nb_ptc := fun k => file.nb_ptc.getD k 0
        nb_classes := fun j => file.nb_classes.getD j "" } := by
  simp [load_identifier, unpack, h]

theorem logprob_to_pred_n_lt (l : List ℚ) (n : Nat) (h : 0 < n) :
    logprob_to_pred_n l n < n := by
  obtain ⟨k, rfl⟩ : ∃ k, n = k + 1 := ⟨n - 1, by omega⟩
  have := (pred_loop_inv l k).1
  omega

theorem loaded_model_facts (file : Msg) (lid : LanguageIdentifier)
    (hload : load_identifier file = some lid) :
    file.wellFormed = true
    ∧ (0 < lid.num_states ∧ 0 < lid.num_feats ∧ 0 < lid.num_langs)
    ∧ (∀ s b, s < lid.num_states → b < 256 → lid.tk_nextmove s b < lid.num_states)
    ∧ (∀ s, s < lid.num_states →
        lid.tk_output_s s + lid.tk_output_c s ≤ file.tk_output.length)
    ∧ (∀ k, k < file.tk_output.length → lid.tk_output k < lid.num_feats) := by
  have hw : file.wellFormed = true := by
    cases hfe : file.wellFormed
    · rw [load_identifier_none file hfe] at hload
      exact Option.noConfusion hload
    · rfl
  rw [load_identifier_some file hw] at hload
  have hlid := (Option.some.inj hload).symm
  subst hlid
  have hW := hw
  simp only [Msg.wellFormed, Bool.and_eq_true, decide_eq_true_eq, beq_iff_eq,
    List.all_eq_true, List.mem_range] at hW
  obtain ⟨⟨⟨⟨⟨⟨⟨⟨⟨⟨⟨hp1, hp2⟩, hp3⟩, hp4⟩, hp5⟩, hp6⟩, hp7⟩, hp8⟩, hp9⟩,
    hp10⟩, hp11⟩, hp12⟩ := hW
  refine ⟨hw, ⟨hp1, hp2, hp3⟩, ?_, ?_, ?_⟩
  · intro s b hs hb
    have hs2 : s < file.num_states := hs
    have hidx : s * 256 + b < file.tk_nextmove.length := by
      rw [hp4]
      omega
    exact getD_lt_of_all file.tk_nextmove file.num_states hp10 (s * 256 + b) hidx
  · intro s hs
    have hs2 : s < file.num_states := hs
    exact hp11 s hs2
  · intro k hk
    exact getD_lt_of_all file.tk_output file.num_feats hp12 k hk

/-- C3: loading a structurally invalid message fails (returns no model), and
any model the load does return keeps every classification-time table access
in bounds: every state reached by the walk is a valid state index, every
active state's emission range lies inside the emission list, every active
feature index is below `num_feats`, and the predicted index is below
`num_langs`. -/
theorem load_identifier_safe (file : Msg) :
    (file.wellFormed = false → load_identifier file = none)
    ∧ (∀ lid, load_identifier file = some lid →
        ∀ (text : List Nat), (∀ b ∈ text, b < 256) → ∀ (sv fv : SparseSet),
          (0 < lid.num_states ∧ 0 < lid.num_feats ∧ 0 < lid.num_langs)
          ∧ (∀ s ∈ statesFrom lid 0 text, s < lid.num_states)
          ∧ (∀ s ∈ SparseSet.keys (text_to_fv lid text sv fv).1,
              s < lid.num_states
              ∧ lid.tk_output_s s + lid.tk_output_c s ≤ file.tk_output.length)
          ∧ (∀ f ∈ SparseSet.keys (text_to_fv lid text sv fv).2, f < lid.num_feats)
          ∧ identify_index lid text sv fv < lid.num_langs) := by
  constructor
  · exact load_identifier_none file
  · intro lid hload text hbytes sv fv
    obtain ⟨hw, ⟨hVs, hVf, hVl⟩, hVtrans, hVemit, hVout⟩ :=
      loaded_model_facts file lid hload
    have hstates : ∀ s ∈ statesFrom lid 0 text, s < lid.num_states :=
      statesFrom_lt lid lid.num_states hVtrans text 0 hVs hbytes
    have hsv : ∀ s ∈ SparseSet.keys (text_to_fv lid text sv fv).1,
        s < lid.num_states := by
      intro s hs
      rw [text_to_fv_fst_eq] at hs
      rcases walk_keys_mem lid text 0 [] s hs with h1 | h1
      · simp [SparseSet.keys] at h1
      · exact hstates s h1
    refine ⟨⟨hVs, hVf, hVl⟩, hstates, ?_, ?_, ?_⟩
    · intro s hs
      exact ⟨hsv s hs, hVemit s (hsv s hs)⟩
    · intro f hf
      rw [text_to_fv_snd_eq] at hf
      rcases fvFold_keys_mem lid (text_to_fv lid text sv fv).1 [] f hf with h1 | h1
      · simp [SparseSet.keys] at h1
      · obtain ⟨mc, hmc, hfe⟩ := h1
        have hmc1 : mc.1 < lid.num_states := by
          apply hsv mc.1
          exact List.mem_map.2 ⟨mc, hmc, rfl⟩
        obtain ⟨j, hj, hje⟩ := List.mem_map.1 hfe
        have hjlt : j < lid.tk_output_c mc.1 := List.mem_range.1 hj
        have hidx : lid.tk_output_s mc.1 + j < file.tk_output.length := by
          have := hVemit mc.1 hmc1
          omega
        rw [← hje]
        exact hVout (lid.tk_output_s mc.1 + j) hidx
    · exact logprob_to_pred_n_lt (identify_logprobs lid text sv fv) lid.num_langs hVl

set_option maxRecDepth 100000 in
/-- Witness for C3: the invalid message `exMsgBad` (declared `num_states = 2`
with a one-state transition table) is rejected by the load. -/
theorem load_identifier_safe_witness :
    exMsgBad.wellFormed = false ∧ load_identifier exMsgBad = none :=
  ⟨by decide, (load_identifier_safe exMsgBad).1 (by decide)⟩
